import Mathlib

/-!
# StockUtility: a shallow embedding of the two command-line programs

`symbol-ratios-shp.go` scrapes company ratios and shareholding rows and writes a CSV;
`zscsv.go` joins an input CSV against a lookup CSV and prints `index_NN := ...` lines.

Go strings are modelled as lists of characters (`Str`), i.e. as the sequence of runes of
valid UTF-8 text.  The browser (chromedp), the file system and `encoding/csv` are
collaborators: what they hand to the program appears as an explicit argument.
-/

set_option autoImplicit false

/-- A Go string, seen as its sequence of runes. -/
abbrev Str := List Char

/-! ## The parts of the Go standard library the programs call -/

namespace unicode

/-- Go `unicode.IsSpace`: the Latin-1 spaces `\t \n \v \f \r`, space, U+0085, U+00A0 and the
code points with the White_Space property above Latin-1. -/
def IsSpace (c : Char) : Bool :=
  (9 ≤ c.toNat && c.toNat ≤ 13) || c.toNat == 32 || c.toNat == 0x85 || c.toNat == 0xA0 ||
  c.toNat == 0x1680 || (0x2000 ≤ c.toNat && c.toNat ≤ 0x200A) || c.toNat == 0x2028 ||
  c.toNat == 0x2029 || c.toNat == 0x202F || c.toNat == 0x205F || c.toNat == 0x3000

end unicode

namespace strings

/-- Go `strings.TrimLeftFunc`. -/
def TrimLeftFunc (s : Str) (f : Char → Bool) : Str :=
  s.dropWhile f

/-- Go `strings.TrimRightFunc`. -/
def TrimRightFunc (s : Str) (f : Char → Bool) : Str :=
  (s.reverse.dropWhile f).reverse

/-- Go `strings.TrimSpace`: leading and trailing white space removed. -/
def TrimSpace (s : Str) : Str :=
  TrimRightFunc (TrimLeftFunc s unicode.IsSpace) unicode.IsSpace

/-- Go `strings.TrimRight`: every trailing code point contained in `cutset` removed. -/
def TrimRight (s cutset : Str) : Str :=
  TrimRightFunc s (fun c => cutset.contains c)

/-- Go `strings.Contains`. -/
def Contains (s substr : Str) : Bool :=
  s.tails.any (fun t => substr.isPrefixOf t)

/-- Scan of `strings.ReplaceAll` for a non-empty `old`: `skip` counts the characters of the
match just replaced that are still to be passed over. -/
def ReplaceAllAux (old new : Str) : Nat → Str → Str
  | _, [] => []
  | skip + 1, _ :: cs => ReplaceAllAux old new skip cs
  | 0, c :: cs =>
    if old.isPrefixOf (c :: cs) then new ++ ReplaceAllAux old new (old.length - 1) cs
    else c :: ReplaceAllAux old new 0 cs

/-- Go `strings.ReplaceAll`: the non-overlapping matches of `old`, leftmost first, replaced by
`new`; an empty `old` matches before every rune and at the end. -/
def ReplaceAll (s old new : Str) : Str :=
  if old = [] then new ++ s.flatMap (fun c => c :: new) else ReplaceAllAux old new 0 s

/-- Go `strings.SplitN(s, sep, 2)` for a one-character separator: `[s]` when `sep` does not
occur, otherwise the text before the first `sep` and the whole remainder after it. -/
def SplitN2 (s : Str) (sep : Char) : List Str :=
  if sep ∈ s then [s.takeWhile (fun c => c != sep), (s.dropWhile (fun c => c != sep)).drop 1]
  else [s]

/-- Go `strings.Join`. -/
def Join (elems : List Str) (sep : Str) : Str :=
  sep.intercalate elems

end strings

namespace fmt

/-- The verb `%02d` of `fmt.Sprintf` on a non-negative integer: decimal digits, padded on the
left with zeros to width two. -/
def d02 (n : Nat) : Str :=
  List.replicate (2 - (Nat.toDigits 10 n).length) '0' ++ Nat.toDigits 10 n

end fmt

/-! ## Program 1: `symbol-ratios-shp.go` -/

namespace SymbolRatiosShp

/-- The struct `CompanyData`. -/
structure CompanyData where
  StockSymbol : Str
  CompanyRatios : Str
  ShareholdingDetails : List Str
  deriving DecidableEq, Repr

/-- The map literal `transformations` of `transformKey`. -/
def transformations : List (Str × Str) :=
  [("Market Cap".toList, "MktCap".toList),
   ("Current Price".toList, "CP".toList),
   ("High / Low".toList, "HL".toList),
   ("Stock P/E".toList, "P/E".toList),
   ("Book Value".toList, "BV".toList),
   ("Dividend Yield".toList, "DY".toList),
   ("ROCE".toList, "ROCE".toList),
   ("ROE".toList, "ROE".toList),
   ("Face Value".toList, "FV".toList)]

/-- The function `transformKey`: the key is trimmed, then looked up in `transformations`. -/
def transformKey (key : Str) : Str :=
  let trimmedKey := strings.TrimSpace key
  match transformations.lookup trimmedKey with
  | some newKey => newKey
  | none => trimmedKey

/-- The loop `for len(shareholders) < 4 { shareholders = append(shareholders, "0.0%") }`. -/
def padShareholders (shareholders : List Str) : List Str :=
  if shareholders.length < 4 then padShareholders (shareholders ++ ["0.0%".toList])
  else shareholders
termination_by 4 - shareholders.length
decreasing_by simp_wf; omega

/-- One pass of the body of `for _, ratio := range ratios`, on the slice `transformedRatios`
built so far. -/
def ratioStep (transformedRatios : List Str) (ratio : Str) : List Str :=
  match strings.SplitN2 ratio ':' with
  | [part0, part1] =>
    let key := strings.TrimSpace part0
    let value := strings.TrimSpace part1
    let transformedKey := transformKey key
    if transformedKey = "CP".toList ∨ transformedKey = "HL".toList ∨
        transformedKey = "DY".toList then
      transformedRatios
    else
      let separator := if transformedKey = "MktCap".toList then ", ".toList else "; ".toList
      transformedRatios ++ [transformedKey ++ ":".toList ++ value ++ separator]
  | _ => transformedRatios

/-- The slice `transformedRatios` after the loop over `ratios`. -/
def transformedRatios (ratios : List Str) : List Str :=
  ratios.foldl ratioStep []

/-- The string `finalRatios`. -/
def finalRatios (ratios : List Str) : Str :=
  strings.TrimRight (strings.Join (transformedRatios ratios) []) ",;".toList

/-- The function `fetchCompanyData`. `page` is what `chromedp.Run` leaves in `shareholders` and
`ratios`, or `none` when it returns an error. -/
def fetchCompanyData (stockSymbol : Str) (page : Option (List Str × List Str)) :
    Option CompanyData :=
  match page with
  | none => none
  | some (shareholders, ratios) =>
    some { StockSymbol := stockSymbol
           CompanyRatios := finalRatios ratios
           ShareholdingDetails := padShareholders shareholders }

/-- The slice `formattedShareholding` of `main`; `none` stands for the run-time panic of an
index out of range. -/
def formattedShareholding (details : List Str) : Option (List Str) :=
  match details.get? 0, details.get? 1, details.get? 2, details.get? 3 with
  | some d0, some d1, some d2, some d3 =>
    some ["P:".toList ++ strings.TrimSpace d0,
          "FIIs:".toList ++ strings.TrimSpace d1,
          "DIIs:".toList ++ strings.TrimSpace d2,
          "O:".toList ++
            (if strings.Contains d3 ",".toList then "0.0%".toList else strings.TrimSpace d3)]
  | _, _, _, _ => none

end SymbolRatiosShp

/-! ## Program 2: `zscsv.go` -/

namespace Zscsv

/-- What one call of `reader.Read()` returns before the end of the file: a record, or an error
other than `EOF`. The end of the list of results is `EOF`. -/
inductive ReadResult where
  | record (fields : List Str)
  | failure
  deriving DecidableEq, Repr

/-- The two ways `CompanyInfo` returns a non-nil error. -/
inductive LookupError where
  | openFailed
  | readFailed
  deriving DecidableEq, Repr

/-- The two ways `main` stops before its end: `log.Fatalf`, and the run-time panic of an index
out of range. -/
inductive Fault where
  | fatal
  | indexOutOfRange
  deriving DecidableEq, Repr

/-- The loop `for { record, err := reader.Read() ... }` of `CompanyInfo`. -/
def scanRecords (target : Str) : List ReadResult → Except LookupError (Str × Str)
  | [] => .ok ("NA".toList, "NA".toList)
  | .failure :: _ => .error .readFailed
  | .record (c0 :: c1 :: c2 :: _) :: rest =>
    if c0 = target then .ok (c1, c2) else scanRecords target rest
  | .record _ :: rest => scanRecords target rest

/-- The function `CompanyInfo`. `file` is what the path holds: `none` when `os.Open` fails,
otherwise the results of the successive reads of the CSV reader. -/
def CompanyInfo (file : Option (List ReadResult)) (target : Str) :
    Except LookupError (Str × Str) :=
  match file with
  | none => .error .openFailed
  | some results => scanRecords target results

/-- The slice literal `toReplace`. -/
def toReplace : List Str :=
  ["-BE".toList, "-EQ".toList, "-BZ".toList]

/-- The class `[a-zA-Z0-9]`, whose complement is the regular expression `re`. -/
def isAlnum (c : Char) : Bool :=
  (97 ≤ c.toNat && c.toNat ≤ 122) || (65 ≤ c.toNat && c.toNat ≤ 90) ||
  (48 ≤ c.toNat && c.toNat ≤ 57)

/-- The call `re.ReplaceAllString(s, "_")`: every rune outside `[a-zA-Z0-9]` becomes `_`. -/
def reReplaceAll (s : Str) : Str :=
  s.map (fun c => if isAlnum c then c else '_')

/-- The format `"    index_%02d := '%s', index_%02d_mc := %s\n"`. -/
def formatLine (sequence : Nat) (name pfret : Str) : Str :=
  "    index_".toList ++ fmt.d02 sequence ++ " := '".toList ++ name ++ "', index_".toList ++
    fmt.d02 sequence ++ "_mc := ".toList ++ pfret ++ "\n".toList

/-- The variable `cleanedValue` after the loop `for _, substr := range toReplace`, started
from `row[0]`. -/
def cleanedValue (row0 : Str) : Str :=
  toReplace.foldl (fun cleaned substr => strings.ReplaceAll cleaned substr []) row0

/-- The body of the row loop of `main` above `sequence++`, for a row that is not the header:
the strings written to the output, or the fault that stops the program. The same text goes to
the standard output and to the buffered writer, whose writes are taken to succeed. -/
def rowBody (file : Option (List ReadResult)) (sequence : Nat) (row : List Str) :
    Except Fault (List Str) :=
  match row with
  | [] => .ok []
  | row0 :: _ =>
    let stockSymbol := cleanedValue row0
    match CompanyInfo file stockSymbol with
    | .error _ => .error .fatal
    | .ok (sh_value1, sh_value2) =>
      let trimmedText := reReplaceAll (strings.TrimSpace row0)
      let sanitizedValue := "NSE:".toList ++ strings.ReplaceAll trimmedText "_BE".toList []
      match row.get? 1, row.get? 2 with
      | some row1, some row2 =>
        let pfret := "'".toList ++ row1 ++ ", ".toList ++ row2 ++ ", ".toList ++ sh_value1 ++
          ", ".toList ++ sh_value2 ++ "'".toList
        .ok [formatLine sequence (strings.TrimSpace sanitizedValue) pfret]
      | _, _ => .error .indexOutOfRange

/-- The variables of `main` that live across rows: the counter and what has been written. -/
structure LoopState where
  sequence : Nat
  written : List Str
  deriving DecidableEq, Repr

/-- The loop `for index, row := range records` of `main`, from row number `index` on. -/
def loop (file : Option (List ReadResult)) : Nat → List (List Str) → LoopState →
    Except Fault LoopState
  | _, [], st => .ok st
  | index, row :: rest, st =>
    if index = 0 then loop file (index + 1) rest st
    else
      match rowBody file st.sequence row with
      | .error f => .error f
      | .ok lines =>
        if st.sequence + 1 > 19 then
          loop file (index + 1) rest ⟨1, st.written ++ lines ++ ["\n".toList]⟩
        else
          loop file (index + 1) rest ⟨st.sequence + 1, st.written ++ lines⟩

/-- The function `main` from `sequence := 1` on: `records` is what `reader.ReadAll()` returned
for the input file, `file` what the lookup path holds during the run. -/
def main (file : Option (List ReadResult)) (records : List (List Str)) :
    Except Fault LoopState :=
  loop file 0 records ⟨1, []⟩

/-- The strings a row contributes to the output: those of `rowBody`, none on a fault. -/
def linesOf (r : Except Fault (List Str)) : List Str :=
  match r with
  | .ok lines => lines
  | .error _ => []

/-- Closed form of the output for the rows numbered `k`, `k + 1`, ... (the header not counted):
row `k` is formatted with counter `(k - 1) % 19 + 1`, and a blank line follows it exactly when
`k % 19 = 0`. -/
def writtenFrom (file : Option (List ReadResult)) : Nat → List (List Str) → List Str
  | _, [] => []
  | k, row :: rest =>
    linesOf (rowBody file ((k - 1) % 19 + 1) row) ++
      (if k % 19 = 0 then ["\n".toList] else []) ++ writtenFrom file (k + 1) rest

end Zscsv

/-! ## Properties -/

namespace strings

theorem mem_of_mem_TrimRightFunc {s : Str} {f : Char → Bool} {c : Char}
    (h : c ∈ TrimRightFunc s f) : c ∈ s := by
  unfold TrimRightFunc at h
  rw [List.mem_reverse] at h
  exact List.mem_reverse.mp ((List.dropWhile_sublist f).subset h)

theorem mem_of_mem_TrimSpace {s : Str} {c : Char} (h : c ∈ TrimSpace s) : c ∈ s := by
  unfold TrimSpace TrimLeftFunc at h
  exact (List.dropWhile_sublist _).subset (mem_of_mem_TrimRightFunc h)

theorem TrimRightFunc_append_singleton (s : Str) (f : Char → Bool) (c : Char) (h : f c = false) :
    TrimRightFunc (s ++ [c]) f = s ++ [c] := by
  simp [TrimRightFunc, List.dropWhile_cons, h]

theorem SplitN2_of_not_mem {s : Str} {sep : Char} (h : sep ∉ s) : SplitN2 s sep = [s] := by
  simp [SplitN2, h]

end strings

namespace SymbolRatiosShp

theorem padShareholders_eq (shareholders : List Str) :
    padShareholders shareholders =
      shareholders ++ List.replicate (4 - shareholders.length) "0.0%".toList := by
  induction shareholders using padShareholders.induct with
  | case1 s h ih =>
    rw [padShareholders, if_pos h, ih]
    have e : 4 - s.length = (4 - (s ++ ["0.0%".toList]).length) + 1 := by
      simp only [List.length_append, List.length_singleton]; omega
    rw [e, List.replicate_succ]
    simp
  | case2 s h =>
    rw [padShareholders, if_neg h]
    have e : 4 - s.length = 0 := by omega
    simp [e]

theorem ratioStep_of_not_mem (acc : List Str) (ratio : Str) (h : ':' ∉ ratio) :
    ratioStep acc ratio = acc := by
  simp [ratioStep, strings.SplitN2_of_not_mem h]

theorem foldl_ratioStep_filter (ratios : List Str) (acc : List Str) :
    (ratios.filter (fun r => decide (':' ∈ r))).foldl ratioStep acc =
      ratios.foldl ratioStep acc := by
  induction ratios generalizing acc with
  | nil => rfl
  | cons r rs ih =>
    by_cases h : ':' ∈ r
    · simp only [List.filter_cons, h, decide_True, if_true, List.foldl_cons]
      exact ih _
    · simp only [List.filter_cons, h, decide_False, List.foldl_cons]
      rw [ratioStep_of_not_mem acc r h]
      simpa using ih acc

end SymbolRatiosShp

namespace SymbolRatiosShp

theorem lookup_transformations_cases (k : Str) :
    (transformations.lookup k = none ∧
      k ∉ ["Market Cap".toList, "Current Price".toList, "High / Low".toList,
        "Stock P/E".toList, "Book Value".toList, "Dividend Yield".toList, "ROCE".toList,
        "ROE".toList, "Face Value".toList]) ∨
    (k, transformations.lookup k) ∈
      [("Market Cap".toList, some "MktCap".toList), ("Current Price".toList, some "CP".toList),
       ("High / Low".toList, some "HL".toList), ("Stock P/E".toList, some "P/E".toList),
       ("Book Value".toList, some "BV".toList), ("Dividend Yield".toList, some "DY".toList),
       ("ROCE".toList, some "ROCE".toList), ("ROE".toList, some "ROE".toList),
       ("Face Value".toList, some "FV".toList)] := by
  by_cases h1 : k = "Market Cap".toList
  · subst h1; right; decide
  by_cases h2 : k = "Current Price".toList
  · subst h2; right; decide
  by_cases h3 : k = "High / Low".toList
  · subst h3; right; decide
  by_cases h4 : k = "Stock P/E".toList
  · subst h4; right; decide
  by_cases h5 : k = "Book Value".toList
  · subst h5; right; decide
  by_cases h6 : k = "Dividend Yield".toList
  · subst h6; right; decide
  by_cases h7 : k = "ROCE".toList
  · subst h7; right; decide
  by_cases h8 : k = "ROE".toList
  · subst h8; right; decide
  by_cases h9 : k = "Face Value".toList
  · subst h9; right; decide
  left
  refine ⟨?_, ?_⟩
  · simp only [transformations, List.lookup]
    have b : ∀ a : Str, k ≠ a → (k == a) = false := fun a h => by simpa using h
    rw [b _ h1, b _ h2, b _ h3, b _ h4, b _ h5, b _ h6, b _ h7, b _ h8, b _ h9]
  · simp only [List.mem_cons, List.mem_singleton, not_or, List.not_mem_nil, or_false]
    exact ⟨h1, h2, h3, h4, h5, h6, h7, h8, h9⟩

end SymbolRatiosShp

namespace SymbolRatiosShp

theorem transformKey_not_mem_colon (key : Str) (h : ':' ∉ key) : ':' ∉ transformKey key := by
  have hk : ':' ∉ strings.TrimSpace key := fun hc => h (strings.mem_of_mem_TrimSpace hc)
  unfold transformKey
  rcases lookup_transformations_cases (strings.TrimSpace key) with ⟨hn, _⟩ | hm
  · simp only [hn]; exact hk
  · simp only [List.mem_cons, List.mem_singleton, Prod.mk.injEq, List.not_mem_nil, or_false] at hm
    rcases hm with ⟨_, e⟩ | ⟨_, e⟩ | ⟨_, e⟩ | ⟨_, e⟩ | ⟨_, e⟩ | ⟨_, e⟩ | ⟨_, e⟩ | ⟨_, e⟩ | ⟨_, e⟩ <;>
      simp only [e] <;> decide

theorem takeWhile_colon_append (k rest : Str) (h : ':' ∉ k) :
    (k ++ ':' :: rest).takeWhile (fun c => c != ':') = k := by
  induction k with
  | nil => simp
  | cons c cs ih =>
    have hc : c ≠ ':' := fun e => h (by simp [e])
    have hcs : ':' ∉ cs := fun e => h (List.mem_cons_of_mem _ e)
    simp [List.takeWhile_cons, hc, ih hcs]

/-- C5 (amended): `transformKey` maps a label whose trimmed form is one of the nine table
entries to the canonical key of that entry, and returns every other label trimmed of
surrounding white space. -/
theorem transformKey_spec (key : Str) :
    (strings.TrimSpace key = "Market Cap".toList → transformKey key = "MktCap".toList) ∧
    (strings.TrimSpace key = "Current Price".toList → transformKey key = "CP".toList) ∧
    (strings.TrimSpace key = "High / Low".toList → transformKey key = "HL".toList) ∧
    (strings.TrimSpace key = "Stock P/E".toList → transformKey key = "P/E".toList) ∧
    (strings.TrimSpace key = "Book Value".toList → transformKey key = "BV".toList) ∧
    (strings.TrimSpace key = "Dividend Yield".toList → transformKey key = "DY".toList) ∧
    (strings.TrimSpace key = "ROCE".toList → transformKey key = "ROCE".toList) ∧
    (strings.TrimSpace key = "ROE".toList → transformKey key = "ROE".toList) ∧
    (strings.TrimSpace key = "Face Value".toList → transformKey key = "FV".toList) ∧
    (strings.TrimSpace key ∉ ["Market Cap".toList, "Current Price".toList, "High / Low".toList,
        "Stock P/E".toList, "Book Value".toList, "Dividend Yield".toList, "ROCE".toList,
        "ROE".toList, "Face Value".toList] →
      transformKey key = strings.TrimSpace key) := by
  refine ⟨?_, ?_, ?_, ?_, ?_, ?_, ?_, ?_, ?_, ?_⟩
  case refine_10 =>
    intro h
    rcases lookup_transformations_cases (strings.TrimSpace key) with ⟨hn, _⟩ | hm
    · simp only [transformKey, hn]
    · exfalso
      apply h
      simp only [List.mem_cons, List.mem_singleton, Prod.mk.injEq, List.not_mem_nil,
        or_false] at hm ⊢
      rcases hm with ⟨e, _⟩ | ⟨e, _⟩ | ⟨e, _⟩ | ⟨e, _⟩ | ⟨e, _⟩ | ⟨e, _⟩ | ⟨e, _⟩ | ⟨e, _⟩ |
        ⟨e, _⟩ <;> simp [e]
  all_goals
    intro h
    simp only [transformKey, h]
    rfl

/-- C5 (as stated) fails: the label `" Market Cap"` is not one of the nine table entries, yet
`transformKey` returns `"MktCap"` and not the trimmed label `"Market Cap"`. -/
theorem transformKey_padded_label_counterexample :
    " Market Cap".toList ∉ transformations.map Prod.fst ∧
    strings.TrimSpace " Market Cap".toList = "Market Cap".toList ∧
    transformKey " Market Cap".toList = "MktCap".toList ∧
    transformKey " Market Cap".toList ≠ strings.TrimSpace " Market Cap".toList := by
  decide

end SymbolRatiosShp

namespace strings

theorem Join_nil_sep (elems : List Str) : Join elems [] = elems.flatten := by
  unfold Join List.intercalate
  induction elems with
  | nil => rfl
  | cons e es ih =>
    cases es with
    | nil => simp [List.intersperse]
    | cons e2 es2 =>
      simp only [List.intersperse, List.flatten_cons, List.nil_append] at ih ⊢
      rw [ih]

theorem TrimRight_of_last_not_mem (s cutset : Str) (c : Char) (h : c ∉ cutset) :
    TrimRight (s ++ [c]) cutset = s ++ [c] := by
  unfold TrimRight
  apply TrimRightFunc_append_singleton
  simpa using h

end strings

namespace SymbolRatiosShp

theorem ratioStep_mem_space (acc : List Str) (ratio e : Str) (h : e ∈ ratioStep acc ratio) :
    e ∈ acc ∨ ∃ body, e = body ++ [' '] := by
  unfold ratioStep at h
  split at h
  · rename_i p0 p1 _
    simp only at h
    split at h
    · exact Or.inl h
    · rcases List.mem_append.mp h with h | h
      · exact Or.inl h
      · right
        rw [List.mem_singleton] at h
        subst h
        split
        · exact ⟨transformKey (strings.TrimSpace p0) ++ ":".toList ++ strings.TrimSpace p1 ++ [','],
            by simp [show ", ".toList = [',', ' '] from rfl]⟩
        · exact ⟨transformKey (strings.TrimSpace p0) ++ ":".toList ++ strings.TrimSpace p1 ++ [';'],
            by simp [show "; ".toList = [';', ' '] from rfl]⟩
  · exact Or.inl h

theorem foldl_ratioStep_mem_space (ratios acc : List Str) (e : Str)
    (h : e ∈ ratios.foldl ratioStep acc) : e ∈ acc ∨ ∃ body, e = body ++ [' '] := by
  induction ratios generalizing acc with
  | nil => exact Or.inl h
  | cons r rs ih =>
    rcases ih _ h with h1 | h1
    · exact ratioStep_mem_space acc r e h1
    · exact Or.inr h1

theorem flatten_ends_with_space (es : List Str) (h : ∀ e ∈ es, ∃ body, e = body ++ [' ']) :
    es.flatten = [] ∨ ∃ body, es.flatten = body ++ [' '] := by
  rcases List.eq_nil_or_concat es with hnil | ⟨init, last, rfl⟩
  · left; simp [hnil]
  · right
    obtain ⟨body, hb⟩ := h last (by simp)
    exact ⟨init.flatten ++ body, by simp [hb]⟩

/-- The trim of `finalRatios` never removes anything: every entry ends with the space of its
separator, and the cutset `",;"` does not contain the space. -/
theorem finalRatios_eq_flatten (ratios : List Str) :
    finalRatios ratios = (transformedRatios ratios).flatten := by
  unfold finalRatios
  rw [strings.Join_nil_sep]
  have hall : ∀ e ∈ transformedRatios ratios, ∃ body, e = body ++ [' '] := by
    intro e he
    rcases foldl_ratioStep_mem_space ratios [] e he with h | h
    · simp at h
    · exact h
  rcases flatten_ends_with_space _ hall with h | ⟨body, h⟩
  · rw [h]; rfl
  · rw [h]
    exact strings.TrimRight_of_last_not_mem body _ ' ' (by decide)

/-- C2: on the ratio list `["Market Cap: 100", "Book Value: 50"]` the Company Ratios string is
`"MktCap:100, BV:50; "`, still ending with the separator `"; "` of its last entry; and the
trim of the specification example `"MktCap:100, ; BV:50; "` leaves it unchanged. -/
theorem finalRatios_keeps_trailing_separator :
    finalRatios ["Market Cap: 100".toList, "Book Value: 50".toList] =
      "MktCap:100, BV:50; ".toList ∧
    strings.TrimRight "MktCap:100, ; BV:50; ".toList ",;".toList =
      "MktCap:100, ; BV:50; ".toList := by
  decide

/-- C7: the padding loop turns a shareholding list of fewer than 4 entries into exactly 4
entries, the original ones followed by `"0.0%"` only, leaves a list of 4 or more entries
unchanged, and the four index accesses of the shareholding formatting in `main` then succeed. -/
theorem fetchCompanyData_pads_shareholders (stockSymbol : Str) (shareholders ratios : List Str) :
    ∃ data, fetchCompanyData stockSymbol (some (shareholders, ratios)) = some data ∧
      (shareholders.length < 4 →
        data.ShareholdingDetails.length = 4 ∧
        data.ShareholdingDetails =
          shareholders ++ List.replicate (4 - shareholders.length) "0.0%".toList) ∧
      (4 ≤ shareholders.length → data.ShareholdingDetails = shareholders) ∧
      (∃ formatted, formattedShareholding data.ShareholdingDetails = some formatted ∧
        formatted.length = 4) := by
  refine ⟨_, rfl, ?_, ?_, ?_⟩
  · intro h
    simp only [padShareholders_eq, List.length_append, List.length_replicate]
    exact ⟨by omega, trivial⟩
  · intro h
    simp only [padShareholders_eq]
    have e : 4 - shareholders.length = 0 := by omega
    simp [e]
  · simp only
    have hlen : 4 ≤ (padShareholders shareholders).length := by
      simp only [padShareholders_eq, List.length_append, List.length_replicate]; omega
    match hp : padShareholders shareholders, hlen with
    | d0 :: d1 :: d2 :: d3 :: _, _ => exact ⟨_, rfl, rfl⟩

theorem ratioStep_append (acc : List Str) (ratio : Str) :
    ratioStep acc ratio = acc ++ ratioStep [] ratio := by
  unfold ratioStep
  split
  · simp only
    split <;> simp
  · simp

theorem foldl_ratioStep_append (ratios acc : List Str) :
    ratios.foldl ratioStep acc = acc ++ ratios.foldl ratioStep [] := by
  induction ratios generalizing acc with
  | nil => simp
  | cons r rs ih =>
    simp only [List.foldl_cons]
    rw [ih (ratioStep acc r), ih (ratioStep [] r), ratioStep_append acc r, List.append_assoc]

theorem finalRatios_cons (r : Str) (rs : List Str) :
    finalRatios (r :: rs) = finalRatios [r] ++ finalRatios rs := by
  have e : transformedRatios (r :: rs) = transformedRatios [r] ++ transformedRatios rs := by
    simp only [transformedRatios, List.foldl_cons, List.foldl_nil]
    exact foldl_ratioStep_append rs _
  simp only [finalRatios_eq_flatten, e, List.flatten_append]

theorem finalRatios_eq_flatten_map (ratios : List Str) :
    finalRatios ratios = (ratios.map (fun r => finalRatios [r])).flatten := by
  induction ratios with
  | nil => rfl
  | cons r rs ih => rw [finalRatios_cons, List.map_cons, List.flatten_cons, ← ih]

theorem finalRatios_singleton_of_not_mem (r : Str) (h : ':' ∉ r) : finalRatios [r] = [] := by
  rw [finalRatios_eq_flatten]
  simp [transformedRatios, ratioStep_of_not_mem [] r h]

theorem finalRatios_singleton_of_mem (r : Str) (h : ':' ∈ r) :
    finalRatios [r] =
      if transformKey (strings.TrimSpace (r.takeWhile (fun c => c != ':'))) ∈
          ["CP".toList, "HL".toList, "DY".toList] then []
      else
        transformKey (strings.TrimSpace (r.takeWhile (fun c => c != ':'))) ++ ":".toList ++
          strings.TrimSpace ((r.dropWhile (fun c => c != ':')).drop 1) ++
          (if transformKey (strings.TrimSpace (r.takeWhile (fun c => c != ':'))) =
              "MktCap".toList then ", ".toList else "; ".toList) := by
  rw [finalRatios_eq_flatten]
  simp only [transformedRatios, List.foldl_cons, List.foldl_nil, ratioStep, strings.SplitN2,
    if_pos h, List.mem_cons, List.mem_singleton, List.not_mem_nil, or_false]
  split <;> simp

theorem takeWhile_append_of_mem_colon (p rest : Str) (h : ':' ∈ p) :
    (p ++ rest).takeWhile (fun c => c != ':') = p.takeWhile (fun c => c != ':') := by
  induction p with
  | nil => simp at h
  | cons c cs ih =>
    by_cases hc : c = ':'
    · simp [List.takeWhile_cons, hc]
    · have hcs : ':' ∈ cs := by
        rcases List.mem_cons.mp h with e | e
        · exact absurd e.symm hc
        · exact e
      simp [List.takeWhile_cons, hc, ih hcs]

theorem finalRatios_singleton_key (r : Str) :
    finalRatios [r] = [] ∨
      (':' ∈ finalRatios [r] ∧
        (finalRatios [r]).takeWhile (fun c => c != ':') ∉
          ["CP".toList, "HL".toList, "DY".toList]) := by
  by_cases h : ':' ∈ r
  · rw [finalRatios_singleton_of_mem r h]
    split
    · exact Or.inl rfl
    · rename_i hden
      right
      have hp0 : ':' ∉ strings.TrimSpace (r.takeWhile (fun c => c != ':')) := by
        intro hc
        have := List.mem_takeWhile_imp (strings.mem_of_mem_TrimSpace hc)
        simp at this
      have htk := transformKey_not_mem_colon _ hp0
      refine ⟨by simp [show ":".toList = [':'] from rfl], ?_⟩
      simp only [show ":".toList = [':'] from rfl, List.append_assoc, List.singleton_append,
        List.cons_append]
      rw [takeWhile_colon_append _ _ htk]
      exact hden
  · exact Or.inl (finalRatios_singleton_of_not_mem r h)

theorem takeWhile_flatten_key (pieces : List Str)
    (h : ∀ p ∈ pieces, p = [] ∨
      (':' ∈ p ∧ p.takeWhile (fun c => c != ':') ∉ ["CP".toList, "HL".toList, "DY".toList])) :
    pieces.flatten.takeWhile (fun c => c != ':') ∉ ["CP".toList, "HL".toList, "DY".toList] := by
  induction pieces with
  | nil => decide
  | cons p ps ih =>
    have ihp := ih (fun q hq => h q (List.mem_cons_of_mem _ hq))
    rcases h p (by simp) with hnil | ⟨hmem, hkey⟩
    · simpa [hnil] using ihp
    · rw [List.flatten_cons, takeWhile_append_of_mem_colon p _ hmem]
      exact hkey

/-- C6 (amended): the Company Ratios string is the concatenation, in input order, of one piece
per raw entry, and each piece is either empty or a single entry with a colon whose key (the
text before its first colon) is none of `CP`, `HL`, `DY`; in particular the string never opens
with a denylisted key. What a raw value carries is copied through unchanged. -/
theorem finalRatios_no_denylisted_entry (ratios : List Str) :
    finalRatios ratios = (ratios.map (fun r => finalRatios [r])).flatten ∧
    (∀ r : Str, finalRatios [r] = [] ∨
      (':' ∈ finalRatios [r] ∧
        (finalRatios [r]).takeWhile (fun c => c != ':') ∉
          ["CP".toList, "HL".toList, "DY".toList])) ∧
    (finalRatios ratios).takeWhile (fun c => c != ':') ∉
      ["CP".toList, "HL".toList, "DY".toList] := by
  refine ⟨finalRatios_eq_flatten_map ratios, finalRatios_singleton_key, ?_⟩
  rw [finalRatios_eq_flatten_map ratios]
  apply takeWhile_flatten_key
  intro p hp
  obtain ⟨r, _, rfl⟩ := List.mem_map.mp hp
  exact finalRatios_singleton_key r

/-- C6 (as stated) fails: the raw entry `"Book Value: 1; CP:5"` is serialized as
`"BV:1; CP:5; "`, which reads as the entry `BV:1; ` followed by the entry `CP:5; `. -/
theorem finalRatios_value_carries_denylisted_counterexample :
    finalRatios ["Book Value: 1; CP:5".toList] = "BV:1; CP:5; ".toList ∧
    finalRatios ["Book Value: 1; CP:5".toList] = "BV:1; ".toList ++ "CP:5; ".toList ∧
    strings.Contains (finalRatios ["Book Value: 1; CP:5".toList]) "; CP:".toList = true := by
  decide

/-- C9: an entry without a `":"` contributes nothing and stops nothing: the Company Ratios
string of a list is that of the list with all such entries removed, namely the concatenation,
in the original order, of what each remaining entry yields on its own, which is
`key:value<separator>` unless its canonical key is denylisted. -/
theorem finalRatios_skips_malformed (ratios : List Str) :
    finalRatios ratios = finalRatios (ratios.filter (fun r => decide (':' ∈ r))) ∧
    finalRatios ratios =
      ((ratios.filter (fun r => decide (':' ∈ r))).map (fun r => finalRatios [r])).flatten ∧
    (∀ r : Str, ':' ∉ r → finalRatios [r] = []) ∧
    (∀ r : Str, ':' ∈ r → finalRatios [r] =
      if transformKey (strings.TrimSpace (r.takeWhile (fun c => c != ':'))) ∈
          ["CP".toList, "HL".toList, "DY".toList] then []
      else
        transformKey (strings.TrimSpace (r.takeWhile (fun c => c != ':'))) ++ ":".toList ++
          strings.TrimSpace ((r.dropWhile (fun c => c != ':')).drop 1) ++
          (if transformKey (strings.TrimSpace (r.takeWhile (fun c => c != ':'))) =
              "MktCap".toList then ", ".toList else "; ".toList)) := by
  have hfilter : finalRatios ratios =
      finalRatios (ratios.filter (fun r => decide (':' ∈ r))) := by
    unfold finalRatios transformedRatios
    rw [foldl_ratioStep_filter]
  refine ⟨hfilter, ?_, finalRatios_singleton_of_not_mem, finalRatios_singleton_of_mem⟩
  rw [← finalRatios_eq_flatten_map]
  exact hfilter

end SymbolRatiosShp

namespace strings

theorem dropWhile_eq_self_of_forall (f : Char → Bool) (s : Str) (h : ∀ c ∈ s, f c = false) :
    s.dropWhile f = s := by
  cases s with
  | nil => rfl
  | cons c cs => simp [List.dropWhile_cons, h c (by simp)]

theorem TrimSpace_eq_self (s : Str) (h : ∀ c ∈ s, unicode.IsSpace c = false) :
    TrimSpace s = s := by
  unfold TrimSpace TrimLeftFunc TrimRightFunc
  rw [dropWhile_eq_self_of_forall _ s h,
    dropWhile_eq_self_of_forall _ s.reverse (fun c hc => h c (List.mem_reverse.mp hc)),
    List.reverse_reverse]

theorem ReplaceAllAux_append (o : Char) (os new base t : Str) (h : ∀ c ∈ base, c ≠ o) :
    ReplaceAllAux (o :: os) new 0 (base ++ t) = base ++ ReplaceAllAux (o :: os) new 0 t := by
  induction base with
  | nil => rfl
  | cons c cs ih =>
    have hc : (o == c) = false := by
      have := h c (by simp)
      simpa using fun e => this e.symm
    have hcs : ∀ c ∈ cs, c ≠ o := fun d hd => h d (List.mem_cons_of_mem _ hd)
    simp only [List.cons_append, ReplaceAllAux, List.isPrefixOf, hc, Bool.false_and,
      Bool.false_eq_true, if_false]
    exact congrArg (List.cons c) (ih hcs)

theorem ReplaceAll_append (o : Char) (os new base t : Str) (h : ∀ c ∈ base, c ≠ o) :
    ReplaceAll (base ++ t) (o :: os) new = base ++ ReplaceAll t (o :: os) new := by
  simp only [ReplaceAll, if_neg (List.cons_ne_nil o os)]
  exact ReplaceAllAux_append o os new base t h

end strings

namespace Zscsv

theorem isAlnum_not_space {c : Char} (h : isAlnum c = true) : unicode.IsSpace c = false := by
  simp only [isAlnum, Bool.or_eq_true, Bool.and_eq_true, decide_eq_true_eq] at h
  simp only [unicode.IsSpace, Bool.or_eq_false_iff, Bool.and_eq_false_iff, decide_eq_false_iff_not,
    beq_eq_false_iff_ne, ne_eq]
  omega

theorem isAlnum_ne_hyphen {c : Char} (h : isAlnum c = true) : c ≠ '-' := by
  rintro rfl
  revert h
  decide

theorem isAlnum_ne_underscore {c : Char} (h : isAlnum c = true) : c ≠ '_' := by
  rintro rfl
  revert h
  decide

theorem reReplaceAll_append_alnum (base t : Str) (h : ∀ c ∈ base, isAlnum c = true) :
    reReplaceAll (base ++ t) = base ++ reReplaceAll t := by
  unfold reReplaceAll
  rw [List.map_append]
  congr 1
  induction base with
  | nil => rfl
  | cons c cs ih =>
    simp only [List.map_cons, h c (by simp), if_true]
    rw [ih (fun d hd => h d (List.mem_cons_of_mem _ hd))]

theorem cleanedValue_suffix (base : Str) (h : ∀ c ∈ base, isAlnum c = true) :
    cleanedValue (base ++ "-BE".toList) = base ∧ cleanedValue (base ++ "-EQ".toList) = base ∧
    cleanedValue (base ++ "-BZ".toList) = base := by
  have hh : ∀ c ∈ base, c ≠ '-' := fun c hc => isAlnum_ne_hyphen (h c hc)
  have e0 : ∀ os : Str, strings.ReplaceAll base ('-' :: os) [] = base := by
    intro os
    have := strings.ReplaceAll_append '-' os [] base [] hh
    rw [List.append_nil] at this
    rw [this]
    simp [strings.ReplaceAll, strings.ReplaceAllAux]
  have step : ∀ (os t : Str), strings.ReplaceAll (base ++ t) ('-' :: os) [] =
      base ++ strings.ReplaceAll t ('-' :: os) [] :=
    fun os t => strings.ReplaceAll_append '-' os [] base t hh
  have l1 : "-BE".toList = '-' :: ['B', 'E'] := rfl
  have l2 : "-EQ".toList = '-' :: ['E', 'Q'] := rfl
  have l3 : "-BZ".toList = '-' :: ['B', 'Z'] := rfl
  have r11 : strings.ReplaceAll ('-' :: ['B', 'E']) ('-' :: ['B', 'E']) [] = [] := by decide
  have r21 : strings.ReplaceAll ('-' :: ['E', 'Q']) ('-' :: ['B', 'E']) [] = '-' :: ['E', 'Q'] := by
    decide
  have r22 : strings.ReplaceAll ('-' :: ['E', 'Q']) ('-' :: ['E', 'Q']) [] = [] := by decide
  have r31 : strings.ReplaceAll ('-' :: ['B', 'Z']) ('-' :: ['B', 'E']) [] = '-' :: ['B', 'Z'] := by
    decide
  have r32 : strings.ReplaceAll ('-' :: ['B', 'Z']) ('-' :: ['E', 'Q']) [] = '-' :: ['B', 'Z'] := by
    decide
  have r33 : strings.ReplaceAll ('-' :: ['B', 'Z']) ('-' :: ['B', 'Z']) [] = [] := by decide
  simp only [cleanedValue, toReplace, List.foldl_cons, List.foldl_nil, l1, l2, l3]
  refine ⟨?_, ?_, ?_⟩
  · rw [step, r11, List.append_nil, e0, e0]
  · rw [step, r21, step, r22, List.append_nil, e0]
  · rw [step, r31, step, r32, step, r33, List.append_nil]

end Zscsv

namespace Zscsv

theorem scanRecords_skip (key : Str) (pre : List (List Str)) (rest : List ReadResult)
    (hpre : ∀ r ∈ pre, 2 < r.length → r.head? ≠ some key) :
    scanRecords key (pre.map ReadResult.record ++ rest) = scanRecords key rest := by
  induction pre with
  | nil => rfl
  | cons r rs ih =>
    have ih2 := ih (fun q hq => hpre q (List.mem_cons_of_mem _ hq))
    have hr := hpre r (by simp)
    match r, hr with
    | [], _ => simpa [scanRecords] using ih2
    | [_], _ => simpa [scanRecords] using ih2
    | [_, _], _ => simpa [scanRecords] using ih2
    | c0 :: c1 :: c2 :: more, hr =>
      have hne : c0 ≠ key := fun e => hr (by simp) (by simp [e])
      simpa [scanRecords, hne] using ih2

/-- C3 (amended): when the rows read before it hold no row of more than two columns whose first
column is the key, and the next row has at least three columns and the key as its first
column, `CompanyInfo` returns the second and third columns of that row with no error, whatever
follows it (a later duplicate, a read error). -/
theorem CompanyInfo_first_match (key c0 c1 c2 : Str) (more : List Str)
    (pre : List (List Str)) (rest : List ReadResult)
    (hpre : ∀ r ∈ pre, 2 < r.length → r.head? ≠ some key) (hkey : c0 = key) :
    CompanyInfo (some (pre.map ReadResult.record ++
      ReadResult.record (c0 :: c1 :: c2 :: more) :: rest)) key = .ok (c1, c2) := by
  simp only [CompanyInfo]
  rw [scanRecords_skip key pre _ hpre]
  simp [scanRecords, hkey]

theorem CompanyInfo_first_match_witness :
    (∀ r ∈ [["A".toList, "1".toList], ["B".toList, "2".toList, "3".toList]],
      2 < r.length → r.head? ≠ some "A".toList) ∧
    CompanyInfo (some ([["A".toList, "1".toList], ["B".toList, "2".toList, "3".toList]].map
        ReadResult.record ++
      ReadResult.record ("A".toList :: "x".toList :: "y".toList :: ["z".toList]) ::
        [ReadResult.record ["A".toList, "p".toList, "q".toList], ReadResult.failure]))
      "A".toList = .ok ("x".toList, "y".toList) :=
  ⟨by decide, CompanyInfo_first_match _ _ _ _ _ _ _ (by decide) rfl⟩

/-- C3 (as stated) fails: in the table with the single row `["A", "1"]` the first row whose
first column is `"A"` has second column `"1"`, yet `CompanyInfo` returns `("NA", "NA")`. -/
theorem CompanyInfo_short_row_counterexample :
    [["A".toList, "1".toList]].find? (fun r => r.head? == some "A".toList) =
      some ["A".toList, "1".toList] ∧
    ["A".toList, "1".toList].get? 1 = some "1".toList ∧
    CompanyInfo (some ([["A".toList, "1".toList]].map ReadResult.record)) "A".toList =
      .ok ("NA".toList, "NA".toList) :=
  ⟨by decide, by decide, rfl⟩

/-- C4: on a lookup table read without a read error in which no row has the key as its first
column, `CompanyInfo` returns `("NA", "NA")` and no error. -/
theorem CompanyInfo_absent_key (rows : List (List Str)) (key : Str)
    (h : ∀ r ∈ rows, r.head? ≠ some key) :
    CompanyInfo (some (rows.map ReadResult.record)) key = .ok ("NA".toList, "NA".toList) := by
  have := scanRecords_skip key rows [] (fun r hr _ => h r hr)
  simp only [List.append_nil] at this
  simp only [CompanyInfo, this]
  rfl

theorem CompanyInfo_absent_key_witness :
    (∀ r ∈ [["A".toList, "1".toList, "2".toList], ["B".toList, "3".toList, "4".toList]],
      r.head? ≠ some "C".toList) ∧
    CompanyInfo (some ([["A".toList, "1".toList, "2".toList],
        ["B".toList, "3".toList, "4".toList]].map ReadResult.record)) "C".toList =
      .ok ("NA".toList, "NA".toList) :=
  ⟨by decide, CompanyInfo_absent_key _ _ (by decide)⟩

/-- C10: for a row whose lookup does not fail, the row body completes exactly when the row has
no column or at least three, and stops on an index out of range exactly when it has one or
two columns. -/
theorem rowBody_index_range (file : Option (List ReadResult)) (sequence : Nat)
    (row : List Str)
    (hlookup : ∀ row0 rest, row = row0 :: rest →
      ∃ v, CompanyInfo file (cleanedValue row0) = .ok v) :
    ((∃ lines, rowBody file sequence row = .ok lines) ↔ (row.length = 0 ∨ 3 ≤ row.length)) ∧
    (rowBody file sequence row = .error .indexOutOfRange ↔
      (row.length = 1 ∨ row.length = 2)) := by
  match row, hlookup with
  | [], _ => simp [rowBody]
  | [a], h =>
    obtain ⟨⟨v1, v2⟩, hv⟩ := h a [] rfl
    simp [rowBody, hv]
  | [a, b], h =>
    obtain ⟨⟨v1, v2⟩, hv⟩ := h a [b] rfl
    simp [rowBody, hv]
  | a :: b :: c :: r, h =>
    obtain ⟨⟨v1, v2⟩, hv⟩ := h a (b :: c :: r) rfl
    simp [rowBody, hv]

theorem rowBody_index_range_witness :
    (∀ row0 rest, ["A-EQ".toList, "1".toList] = row0 :: rest →
      ∃ v, CompanyInfo (some []) (cleanedValue row0) = .ok v) ∧
    (((∃ lines, rowBody (some []) 1 ["A-EQ".toList, "1".toList] = .ok lines) ↔
        (["A-EQ".toList, "1".toList].length = 0 ∨ 3 ≤ ["A-EQ".toList, "1".toList].length)) ∧
      (rowBody (some []) 1 ["A-EQ".toList, "1".toList] = .error .indexOutOfRange ↔
        (["A-EQ".toList, "1".toList].length = 1 ∨ ["A-EQ".toList, "1".toList].length = 2))) :=
  ⟨fun _ _ _ => ⟨_, rfl⟩, rowBody_index_range _ _ _ (fun _ _ _ => ⟨_, rfl⟩)⟩

end Zscsv

namespace Zscsv

theorem loop_append (file : Option (List ReadResult)) (pre rest : List (List Str))
    (hpre : ∀ row ∈ pre, ∀ s, ∃ lines, rowBody file s row = .ok lines)
    (index k : Nat) (st : LoopState) (hindex : 0 < index) (hk : 0 < k)
    (hseq : st.sequence = (k - 1) % 19 + 1) :
    loop file index (pre ++ rest) st =
      loop file (index + pre.length) rest
        ⟨(k - 1 + pre.length) % 19 + 1, st.written ++ writtenFrom file k pre⟩ := by
  induction pre generalizing index k st with
  | nil =>
    obtain ⟨sequence, written⟩ := st
    simp only at hseq
    simp [writtenFrom, hseq]
  | cons row rows ih =>
    obtain ⟨sequence, written⟩ := st
    simp only at hseq
    subst hseq
    obtain ⟨lines, hl⟩ := hpre row (by simp) ((k - 1) % 19 + 1)
    have hrows : ∀ row ∈ rows, ∀ s, ∃ lines, rowBody file s row = .ok lines :=
      fun r hr => hpre r (List.mem_cons_of_mem _ hr)
    have hi : index ≠ 0 := by omega
    simp only [List.cons_append, loop, hi, if_false, hl, writtenFrom, linesOf, List.length_cons]
    by_cases hw : k % 19 = 0
    · have h1 : (k - 1) % 19 + 1 + 1 > 19 := by omega
      rw [if_pos h1, if_pos hw]
      have hih := ih hrows (index + 1) (k + 1) ⟨1, written ++ lines ++ ["\n".toList]⟩
        (by omega) (by omega) (by simp only; omega)
      simp only [List.append_eq]
      rw [hih]
      have e1 : index + 1 + rows.length = index + (rows.length + 1) := by omega
      have e2 : (k + 1 - 1 + rows.length) % 19 = (k - 1 + (rows.length + 1)) % 19 := by
        congr 1; omega
      simp only [e1, e2, List.append_assoc]
    · have h1 : ¬ (k - 1) % 19 + 1 + 1 > 19 := by omega
      rw [if_neg h1, if_neg hw]
      have hih := ih hrows (index + 1) (k + 1) ⟨(k - 1) % 19 + 1 + 1, written ++ lines⟩
        (by omega) (by omega) (by simp only; omega)
      simp only [List.append_eq]
      rw [hih]
      have e1 : index + 1 + rows.length = index + (rows.length + 1) := by omega
      have e2 : (k + 1 - 1 + rows.length) % 19 = (k - 1 + (rows.length + 1)) % 19 := by
        congr 1; omega
      simp only [e1, e2, List.append_assoc, List.append_nil]

/-- C8: the header row produces nothing and leaves the counter at 1; when the first `k - 1`
rows after it are processed without a fault, they have written the closed form `writtenFrom`
(row `j` formatted with counter `(j - 1) % 19 + 1`, a blank line after row `j` exactly when
`j % 19 = 0`), and the run goes on with row `k` at counter `(k - 1) % 19 + 1`, which lies in
`1..19`; with no row left it ends in that state. -/
theorem main_sequence_counter (file : Option (List ReadResult)) (header : List Str)
    (pre rest : List (List Str))
    (hpre : ∀ row ∈ pre, ∀ s, ∃ lines, rowBody file s row = .ok lines) :
    main file (header :: (pre ++ rest)) =
      loop file (pre.length + 1) rest ⟨pre.length % 19 + 1, writtenFrom file 1 pre⟩ ∧
    main file (header :: pre) = .ok ⟨pre.length % 19 + 1, writtenFrom file 1 pre⟩ ∧
    1 ≤ pre.length % 19 + 1 ∧ pre.length % 19 + 1 ≤ 19 := by
  have key : ∀ rest, main file (header :: (pre ++ rest)) =
      loop file (pre.length + 1) rest ⟨pre.length % 19 + 1, writtenFrom file 1 pre⟩ := by
    intro rest
    have := loop_append file pre rest hpre 1 1 ⟨1, []⟩ (by omega) (by omega) rfl
    simp only [main, loop, if_true]
    rw [this]
    simp [Nat.add_comm]
  refine ⟨key rest, ?_, by omega, by omega⟩
  have := key []
  simpa [loop] using this

end Zscsv

namespace Zscsv

theorem sanitizedValue_suffix (base : Str) (h : ∀ c ∈ base, isAlnum c = true) :
    strings.TrimSpace ("NSE:".toList ++ strings.ReplaceAll
        (reReplaceAll (strings.TrimSpace (base ++ "-BE".toList))) "_BE".toList []) =
      "NSE:".toList ++ base ∧
    strings.TrimSpace ("NSE:".toList ++ strings.ReplaceAll
        (reReplaceAll (strings.TrimSpace (base ++ "-EQ".toList))) "_BE".toList []) =
      "NSE:".toList ++ base ++ "_EQ".toList ∧
    strings.TrimSpace ("NSE:".toList ++ strings.ReplaceAll
        (reReplaceAll (strings.TrimSpace (base ++ "-BZ".toList))) "_BE".toList []) =
      "NSE:".toList ++ base ++ "_BZ".toList := by
  have hu : ∀ c ∈ base, c ≠ '_' := fun c hc => isAlnum_ne_underscore (h c hc)
  have hs : ∀ c ∈ base, unicode.IsSpace c = false := fun c hc => isAlnum_not_space (h c hc)
  have trim : ∀ t : Str, (∀ c ∈ t, unicode.IsSpace c = false) →
      strings.TrimSpace (base ++ t) = base ++ t := by
    intro t ht
    apply strings.TrimSpace_eq_self
    intro c hc
    rcases List.mem_append.mp hc with hc | hc
    · exact hs c hc
    · exact ht c hc
  have hN : ∀ c ∈ "NSE:".toList, unicode.IsSpace c = false := by decide
  have trimN : ∀ t : Str, (∀ c ∈ t, unicode.IsSpace c = false) →
      strings.TrimSpace ("NSE:".toList ++ (base ++ t)) = "NSE:".toList ++ (base ++ t) := by
    intro t ht
    apply strings.TrimSpace_eq_self
    intro c hc
    rcases List.mem_append.mp hc with hc | hc
    · exact hN c hc
    · rcases List.mem_append.mp hc with hc | hc
      · exact hs c hc
      · exact ht c hc
  have l0 : "_BE".toList = '_' :: ['B', 'E'] := rfl
  have step : ∀ t : Str, strings.ReplaceAll (base ++ t) ('_' :: ['B', 'E']) [] =
      base ++ strings.ReplaceAll t ('_' :: ['B', 'E']) [] :=
    fun t => strings.ReplaceAll_append '_' ['B', 'E'] [] base t hu
  have r1 : strings.ReplaceAll (reReplaceAll "-BE".toList) ('_' :: ['B', 'E']) [] = [] := by
    decide
  have r2 : strings.ReplaceAll (reReplaceAll "-EQ".toList) ('_' :: ['B', 'E']) [] =
      "_EQ".toList := by decide
  have r3 : strings.ReplaceAll (reReplaceAll "-BZ".toList) ('_' :: ['B', 'E']) [] =
      "_BZ".toList := by decide
  refine ⟨?_, ?_, ?_⟩
  · rw [trim _ (by decide), reReplaceAll_append_alnum _ _ h, l0, step, r1]
    have := trimN [] (by decide)
    simpa using this
  · rw [trim _ (by decide), reReplaceAll_append_alnum _ _ h, l0, step, r2]
    have := trimN "_EQ".toList (by decide)
    simpa using this
  · rw [trim _ (by decide), reReplaceAll_append_alnum _ _ h, l0, step, r3]
    have := trimN "_BZ".toList (by decide)
    simpa using this

/-- C1 (amended): for a row `[sym, f1, f2]` whose symbol is a run of ASCII letters and digits
`base` followed by `-BE`, `-EQ` or `-BZ`, the lookup is made with `base`, and the line written
is the template filled with the two-digit counter, the fields and the lookup result; the
identifier is `NSE:base` for the suffix `-BE`, but `NSE:base_EQ` for `-EQ` and `NSE:base_BZ`
for `-BZ`. -/
theorem rowBody_suffixed_symbol (file : Option (List ReadResult)) (sequence : Nat)
    (base f1 f2 v1 v2 : Str) (hbase : ∀ c ∈ base, isAlnum c = true)
    (hlookup : CompanyInfo file base = .ok (v1, v2)) :
    rowBody file sequence [base ++ "-BE".toList, f1, f2] =
      .ok ["    index_".toList ++ fmt.d02 sequence ++ " := 'NSE:".toList ++ base ++
        "', index_".toList ++ fmt.d02 sequence ++ "_mc := '".toList ++ f1 ++ ", ".toList ++
        f2 ++ ", ".toList ++ v1 ++ ", ".toList ++ v2 ++ "'\n".toList] ∧
    rowBody file sequence [base ++ "-EQ".toList, f1, f2] =
      .ok ["    index_".toList ++ fmt.d02 sequence ++ " := 'NSE:".toList ++ base ++
        "_EQ', index_".toList ++ fmt.d02 sequence ++ "_mc := '".toList ++ f1 ++ ", ".toList ++
        f2 ++ ", ".toList ++ v1 ++ ", ".toList ++ v2 ++ "'\n".toList] ∧
    rowBody file sequence [base ++ "-BZ".toList, f1, f2] =
      .ok ["    index_".toList ++ fmt.d02 sequence ++ " := 'NSE:".toList ++ base ++
        "_BZ', index_".toList ++ fmt.d02 sequence ++ "_mc := '".toList ++ f1 ++ ", ".toList ++
        f2 ++ ", ".toList ++ v1 ++ ", ".toList ++ v2 ++ "'\n".toList] ∧
    (1 ≤ sequence → sequence ≤ 19 → (fmt.d02 sequence).length = 2) := by
  obtain ⟨c1, c2, c3⟩ := cleanedValue_suffix base hbase
  obtain ⟨s1, s2, s3⟩ := sanitizedValue_suffix base hbase
  refine ⟨?_, ?_, ?_, ?_⟩
  · simp only [rowBody, c1, hlookup, s1, List.get?, formatLine]
    simp [show " := 'NSE:".toList = " := '".toList ++ "NSE:".toList from rfl,
      show "'\n".toList = "'".toList ++ "\n".toList from rfl,
      show "_mc := '".toList = "_mc := ".toList ++ "'".toList from rfl]
  · simp only [rowBody, c2, hlookup, s2, List.get?, formatLine]
    simp [show " := 'NSE:".toList = " := '".toList ++ "NSE:".toList from rfl,
      show "'\n".toList = "'".toList ++ "\n".toList from rfl,
      show "_EQ', index_".toList = "_EQ".toList ++ "', index_".toList from rfl,
      show "_mc := '".toList = "_mc := ".toList ++ "'".toList from rfl]
  · simp only [rowBody, c3, hlookup, s3, List.get?, formatLine]
    simp [show " := 'NSE:".toList = " := '".toList ++ "NSE:".toList from rfl,
      show "'\n".toList = "'".toList ++ "\n".toList from rfl,
      show "_BZ', index_".toList = "_BZ".toList ++ "', index_".toList from rfl,
      show "_mc := '".toList = "_mc := ".toList ++ "'".toList from rfl]
  · intro h1 h2
    interval_cases sequence <;> rfl

theorem rowBody_suffixed_symbol_witness :
    (∀ c ∈ "RELIANCE".toList, isAlnum c = true) ∧
    CompanyInfo (some [.record ["RELIANCE".toList, "45.2%".toList, "12.1%".toList]])
      "RELIANCE".toList = .ok ("45.2%".toList, "12.1%".toList) ∧
    (rowBody (some [.record ["RELIANCE".toList, "45.2%".toList, "12.1%".toList]]) 1
        ["RELIANCE".toList ++ "-BE".toList, "2500".toList, "2600".toList] =
      .ok ["    index_".toList ++ fmt.d02 1 ++ " := 'NSE:".toList ++ "RELIANCE".toList ++
        "', index_".toList ++ fmt.d02 1 ++ "_mc := '".toList ++ "2500".toList ++ ", ".toList ++
        "2600".toList ++ ", ".toList ++ "45.2%".toList ++ ", ".toList ++ "12.1%".toList ++
        "'\n".toList] ∧
    rowBody (some [.record ["RELIANCE".toList, "45.2%".toList, "12.1%".toList]]) 1
        ["RELIANCE".toList ++ "-EQ".toList, "2500".toList, "2600".toList] =
      .ok ["    index_".toList ++ fmt.d02 1 ++ " := 'NSE:".toList ++ "RELIANCE".toList ++
        "_EQ', index_".toList ++ fmt.d02 1 ++ "_mc := '".toList ++ "2500".toList ++
        ", ".toList ++ "2600".toList ++ ", ".toList ++ "45.2%".toList ++ ", ".toList ++
        "12.1%".toList ++ "'\n".toList] ∧
    rowBody (some [.record ["RELIANCE".toList, "45.2%".toList, "12.1%".toList]]) 1
        ["RELIANCE".toList ++ "-BZ".toList, "2500".toList, "2600".toList] =
      .ok ["    index_".toList ++ fmt.d02 1 ++ " := 'NSE:".toList ++ "RELIANCE".toList ++
        "_BZ', index_".toList ++ fmt.d02 1 ++ "_mc := '".toList ++ "2500".toList ++
        ", ".toList ++ "2600".toList ++ ", ".toList ++ "45.2%".toList ++ ", ".toList ++
        "12.1%".toList ++ "'\n".toList] ∧
    (1 ≤ 1 → 1 ≤ 19 → (fmt.d02 1).length = 2)) :=
  ⟨by decide, rfl, rowBody_suffixed_symbol _ 1 _ _ _ _ _ (by decide) rfl⟩

/-- C1 (as stated) fails: the row `["RELIANCE-EQ", "2500", "2600"]` with the lookup row
`["RELIANCE", "45.2%", "12.1%"]` and counter 1 is written with the identifier
`NSE:RELIANCE_EQ`, not `NSE:RELIANCE`. -/
theorem rowBody_reliance_eq_counterexample :
    rowBody (some [.record ["RELIANCE".toList, "45.2%".toList, "12.1%".toList]]) 1
        ["RELIANCE-EQ".toList, "2500".toList, "2600".toList] =
      .ok ["    index_01 := 'NSE:RELIANCE_EQ', index_01_mc := '2500, 2600, 45.2%, 12.1%'\n".toList] ∧
    "    index_01 := 'NSE:RELIANCE_EQ', index_01_mc := '2500, 2600, 45.2%, 12.1%'\n".toList ≠
      "    index_01 := 'NSE:RELIANCE', index_01_mc := '2500, 2600, 45.2%, 12.1%'\n".toList :=
  ⟨rfl, by decide⟩

theorem main_sequence_counter_witness :
    (∀ row ∈ List.replicate 19 ["A-BE".toList, "1".toList, "2".toList],
      ∀ s, ∃ lines, rowBody (some []) s row = .ok lines) ∧
    (main (some []) (["Symbol".toList] :: (List.replicate 19
        ["A-BE".toList, "1".toList, "2".toList] ++ [["B-EQ".toList, "3".toList, "4".toList]])) =
      loop (some []) ((List.replicate 19 ["A-BE".toList, "1".toList, "2".toList]).length + 1)
        [["B-EQ".toList, "3".toList, "4".toList]]
        ⟨(List.replicate 19 ["A-BE".toList, "1".toList, "2".toList]).length % 19 + 1,
          writtenFrom (some []) 1 (List.replicate 19 ["A-BE".toList, "1".toList, "2".toList])⟩ ∧
    main (some []) (["Symbol".toList] :: List.replicate 19
        ["A-BE".toList, "1".toList, "2".toList]) =
      .ok ⟨(List.replicate 19 ["A-BE".toList, "1".toList, "2".toList]).length % 19 + 1,
        writtenFrom (some []) 1 (List.replicate 19 ["A-BE".toList, "1".toList, "2".toList])⟩ ∧
    1 ≤ (List.replicate 19 ["A-BE".toList, "1".toList, "2".toList]).length % 19 + 1 ∧
    (List.replicate 19 ["A-BE".toList, "1".toList, "2".toList]).length % 19 + 1 ≤ 19) :=
  ⟨fun row hrow s => by rw [List.eq_of_mem_replicate hrow]; exact ⟨_, rfl⟩,
   main_sequence_counter _ _ _ _
    (fun row hrow s => by rw [List.eq_of_mem_replicate hrow]; exact ⟨_, rfl⟩)⟩

end Zscsv
